import Mathlib

/-!
Verification of the sqsh streaming byte-codec family.

The Rust sources are embedded shallowly: machine bytes are `Nat` values in
`[0, 256)`, a processor's `&mut Vec<u8>` sink is represented by returning the
list of bytes the call appends (the sink delta), and `process`/`finish` are
pure state-passing functions.  `u8`/`u16` wraparound is written as explicit
`% 256` / `% 65536`.  Every definition mirrors one Rust item, named after it.
-/

set_option maxRecDepth 4000

/-! ## Classic RLE (src/sqsh/src/processors/rle/classic.rs) -/

/-- State of `RleClassicEncoder`: pending run length, threshold, last symbol. -/
structure RleClassicEncoder where
  repetition : Nat
  max_threshold : Nat
  last_symbol : Option Nat

/-- `RleClassicEncoder::with_threshold` (the `assert!(max_threshold > 1)` is a
construction precondition; callers in the claims use thresholds > 1). -/
def RleClassicEncoder.withThreshold (t : Nat) : RleClassicEncoder :=
  { repetition := 0, max_threshold := t, last_symbol := none }

/-- `RleClassicEncoder::write_to_sink`: flush the pending run.  The Rust code
asserts `diff <= u8::MAX` and casts `diff as u8`; we write the cast as
`% 256` (equal to `diff` whenever the assert passes). -/
def RleClassicEncoder.writeToSink (st : RleClassicEncoder) : List Nat :=
  match st.last_symbol with
  | none => []
  | some ls =>
    if st.max_threshold ≤ st.repetition then
      List.replicate st.max_threshold ls ++ [(st.repetition - st.max_threshold) % 256]
    else
      List.replicate st.repetition ls

/-- `RleClassicEncoder::new_symbol`. -/
def RleClassicEncoder.newSymbol (st : RleClassicEncoder) (b : Nat) : RleClassicEncoder :=
  { st with repetition := 1, last_symbol := some b }

/-- `RleClassicEncoder::process_byte` (StreamProcess impl). -/
def RleClassicEncoder.processByte (st : RleClassicEncoder) (b : Nat) :
    RleClassicEncoder × List Nat :=
  match st.last_symbol with
  | some ls =>
    if ls = b then ({ st with repetition := st.repetition + 1 }, [])
    else (st.newSymbol b, st.writeToSink)
  | none => (st.newSymbol b, [])

/-- `RleClassicEncoder::finish_byte`: flush any pending run, then reset. -/
def RleClassicEncoder.finishByte (st : RleClassicEncoder) : RleClassicEncoder × List Nat :=
  match st.last_symbol with
  | some _ =>
    ({ st with repetition := 0, last_symbol := none }, st.writeToSink)
  | none => (st, [])

/-- State of `RleClassicDecoder`. -/
structure RleClassicDecoder where
  repetition : Nat
  max_threshold : Nat
  last_symbol : Option Nat

/-- `RleClassicDecoder::with_threshold`. -/
def RleClassicDecoder.withThreshold (t : Nat) : RleClassicDecoder :=
  { repetition := 0, max_threshold := t, last_symbol := none }

/-- `RleClassicDecoder::process_byte`.  Note the branch order of the source:
`byte == last_symbol` is tested before `repetition == max_threshold`. -/
def RleClassicDecoder.processByte (st : RleClassicDecoder) (b : Nat) :
    RleClassicDecoder × List Nat :=
  match st.last_symbol with
  | none =>
    ({ st with last_symbol := some b, repetition := 1 }, [b])
  | some ls =>
    if b = ls then
      ({ st with repetition := st.repetition + 1 }, [b])
    else if st.repetition = st.max_threshold then
      ({ st with repetition := 0, last_symbol := none }, List.replicate b ls)
    else
      ({ st with repetition := 1, last_symbol := some b }, [b])

/-- `RleClassicDecoder::finish_byte`: reset, emits nothing. -/
def RleClassicDecoder.finishByte (st : RleClassicDecoder) : RleClassicDecoder × List Nat :=
  ({ st with repetition := 0, last_symbol := none }, [])

/-! ## The blanket `Process` impl for `StreamProcess`
(src/sqsh/src/core/process.rs): `process` iterates `process_byte` over the
chunk, `finish` calls `finish_byte`. -/

/-- Iterate a byte-level step over a chunk, concatenating the sink deltas
(the blanket `impl<S: StreamProcess> Process for S`). -/
def streamProcessChunk {σ : Type} (stepB : σ → Nat → σ × List Nat) :
    σ → List Nat → σ × List Nat
  | st, [] => (st, [])
  | st, b :: bs =>
    let (st1, o1) := stepB st b
    let (st2, o2) := streamProcessChunk stepB st1 bs
    (st2, o1 ++ o2)

/-- Run one `process` call on `src` followed by `finish`, returning all bytes
written to the sink (the pattern of the crate's `test_process` helper). -/
def runProcessFinish {σ : Type} (proc : σ → List Nat → σ × List Nat)
    (fin : σ → σ × List Nat) (st : σ) (src : List Nat) : List Nat :=
  let (st1, o1) := proc st src
  let (_, o2) := fin st1
  o1 ++ o2

/-- `process` of the classic RLE encoder on a whole chunk. -/
def RleClassicEncoder.process (st : RleClassicEncoder) (src : List Nat) :
    RleClassicEncoder × List Nat :=
  streamProcessChunk RleClassicEncoder.processByte st src

/-- `process` of the classic RLE decoder on a whole chunk. -/
def RleClassicDecoder.process (st : RleClassicDecoder) (src : List Nat) :
    RleClassicDecoder × List Nat :=
  streamProcessChunk RleClassicDecoder.processByte st src

/-- Classic RLE encoding of a byte sequence at threshold `t`:
one `process` call, then `finish`. -/
def encodeClassic (s : List Nat) (t : Nat) : List Nat :=
  runProcessFinish RleClassicEncoder.process RleClassicEncoder.finishByte
    (RleClassicEncoder.withThreshold t) s

/-- Classic RLE decoding of a byte sequence at threshold `t`:
one `process` call, then `finish`. -/
def decodeClassic (s : List Nat) (t : Nat) : List Nat :=
  runProcessFinish RleClassicDecoder.process RleClassicDecoder.finishByte
    (RleClassicDecoder.withThreshold t) s

/-! ## Lossy RLE (src/sqsh/src/processors/rle/lossy.rs) -/

/-- State of `LossyRleEncoder`. -/
structure LossyRleEncoder where
  repetition : Nat
  threshold : Nat
  last_symbol : Option Nat
  loss_count : Nat

/-- `LossyRleEncoder::with_threshold` (`assert!(threshold > 1)` precondition). -/
def LossyRleEncoder.withThreshold (t : Nat) : LossyRleEncoder :=
  { repetition := 0, threshold := t, last_symbol := none, loss_count := 0 }

/-- `LossyRleEncoder::write_to_sink`: emit `symbol` and the count byte
`repetition as u8 + loss_count as u8 - 1` (u8 wrapping arithmetic, written
with `+ 255` standing for the wrapping `- 1`), reset `loss_count`. -/
def LossyRleEncoder.writeToSink (st : LossyRleEncoder) : LossyRleEncoder × List Nat :=
  match st.last_symbol with
  | none => (st, [])
  | some ls =>
    ({ st with loss_count := 0 },
      [ls, (st.repetition % 256 + st.loss_count % 256 + 255) % 256])

/-- `LossyRleEncoder::process_byte`. -/
def LossyRleEncoder.processByte (st : LossyRleEncoder) (b : Nat) :
    LossyRleEncoder × List Nat :=
  match st.last_symbol with
  | none => ({ st with last_symbol := some b, repetition := 1 }, [])
  | some ls =>
    if ls = b then ({ st with repetition := st.repetition + 1 }, [])
    else if st.repetition < st.threshold then
      ({ st with loss_count := st.loss_count + st.repetition,
                 last_symbol := some b, repetition := 1 }, [])
    else
      let (st1, out) := st.writeToSink
      ({ st1 with last_symbol := some b, repetition := 1 }, out)

/-- `LossyRleEncoder::finish_byte`: flush unconditionally, then reset. -/
def LossyRleEncoder.finishByte (st : LossyRleEncoder) : LossyRleEncoder × List Nat :=
  match st.last_symbol with
  | none => (st, [])
  | some _ =>
    let (st1, out) := st.writeToSink
    ({ st1 with last_symbol := none, repetition := 0 }, out)

/-- State of `LossyRleDecoder`: the symbol half of a pending pair. -/
structure LossyRleDecoder where
  last_symbol : Option Nat

/-- `LossyRleDecoder::new`. -/
def LossyRleDecoder.new : LossyRleDecoder := { last_symbol := none }

/-- `LossyRleDecoder::process_byte`: two-byte-at-a-time expander,
`count + 1` copies per pair. -/
def LossyRleDecoder.processByte (st : LossyRleDecoder) (b : Nat) :
    LossyRleDecoder × List Nat :=
  match st.last_symbol with
  | none => ({ last_symbol := some b }, [])
  | some ls => ({ last_symbol := none }, List.replicate (b + 1) ls)

/-- `LossyRleDecoder::finish_byte`: emit a dangling symbol as itself. -/
def LossyRleDecoder.finishByte (st : LossyRleDecoder) : LossyRleDecoder × List Nat :=
  match st.last_symbol with
  | none => (st, [])
  | some ls => (st, [ls])

/-- `process` of the lossy RLE encoder on a whole chunk. -/
def LossyRleEncoder.process (st : LossyRleEncoder) (src : List Nat) :
    LossyRleEncoder × List Nat :=
  streamProcessChunk LossyRleEncoder.processByte st src

/-- `process` of the lossy RLE decoder on a whole chunk. -/
def LossyRleDecoder.process (st : LossyRleDecoder) (src : List Nat) :
    LossyRleDecoder × List Nat :=
  streamProcessChunk LossyRleDecoder.processByte st src

/-- Lossy RLE encoding at threshold `t` (one `process`, then `finish`). -/
def encodeLossy (s : List Nat) (t : Nat) : List Nat :=
  runProcessFinish LossyRleEncoder.process LossyRleEncoder.finishByte
    (LossyRleEncoder.withThreshold t) s

/-- Lossy RLE decoding (one `process`, then `finish`). -/
def decodeLossy (s : List Nat) : List Nat :=
  runProcessFinish LossyRleDecoder.process LossyRleDecoder.finishByte
    LossyRleDecoder.new s

/-! ## Telemetry (infobyte) RLE (src/sqsh/src/processors/rle/telemetry.rs) -/

/-- `chunks_exact(n)` of the Rust slice API: the list of full `n`-chunks and
the remainder (shorter than `n`).  Fuel-based recursion on the length. -/
def chunksExactGo (n : Nat) : Nat → List Nat → List (List Nat) × List Nat
  | 0, l => ([], l)
  | fuel + 1, l =>
    if 0 < n ∧ n ≤ l.length then
      let (cs, r) := chunksExactGo n fuel (l.drop n)
      (l.take n :: cs, r)
    else ([], l)

/-- `chunks_exact(n)`: full chunks and remainder. -/
def chunksExact (n : Nat) (l : List Nat) : List (List Nat) × List Nat :=
  chunksExactGo n l.length l

/-- State of `TelemetryRleEncoder`. -/
structure TelemetryRleEncoder where
  max_threshold : Nat
  remainder : Option (List Nat)
  last_byte : Nat

/-- `TelemetryRleEncoder::new` (default threshold 10). -/
def TelemetryRleEncoder.new : TelemetryRleEncoder :=
  { max_threshold := 10, remainder := none, last_byte := 0 }

/-- One step of the telemetry encoding loop: shift the infobyte, then either
push `128 ± diff` (difference within threshold) or the raw byte with the
info bit set; `last_byte` becomes the current byte.  Shared by
`process_chunk` and `finish`, whose loop bodies are identical. -/
def telemetryEncStep (threshold : Nat) (acc : Nat × Nat × List Nat) (c : Nat) :
    Nat × Nat × List Nat :=
  let (last, infobyte, out) := acc
  let infobyte := infobyte * 2
  let diff := max last c - min last c
  if diff ≤ threshold then
    if c < last then (c, infobyte, out ++ [(128 - diff) % 256])
    else (c, infobyte, out ++ [(128 + diff) % 256])
  else
    (c, infobyte + 1, out ++ [c])

/-- `TelemetryRleEncoder::process_chunk`: encode one group, then append the
accumulated infobyte. -/
def TelemetryRleEncoder.processChunk (st : TelemetryRleEncoder) (chunk : List Nat) :
    TelemetryRleEncoder × List Nat :=
  let (last, infobyte, out) := chunk.foldl (telemetryEncStep st.max_threshold) (st.last_byte, 0, [])
  ({ st with last_byte := last }, out ++ [infobyte % 256])

/-- `TelemetryRleEncoder::process`: split into exact 8-chunks, store the
remainder (overwriting any previous one), and encode each full chunk. -/
def TelemetryRleEncoder.process (st : TelemetryRleEncoder) (source : List Nat) :
    TelemetryRleEncoder × List Nat :=
  let (cs, r) := chunksExact 8 source
  let st := { st with remainder := if r = [] then none else some r }
  cs.foldl (fun (acc : TelemetryRleEncoder × List Nat) chunk =>
    let (st1, out1) := acc.1.processChunk chunk
    (st1, acc.2 ++ out1)) (st, [])

/-- `TelemetryRleEncoder::finish`: flush the stored remainder with the same
loop body as `process_chunk`. -/
def TelemetryRleEncoder.finish (st : TelemetryRleEncoder) :
    TelemetryRleEncoder × List Nat :=
  match st.remainder with
  | none => (st, [])
  | some data =>
    let (last, infobyte, out) := data.foldl (telemetryEncStep st.max_threshold) (st.last_byte, 0, [])
    ({ st with last_byte := last }, out ++ [infobyte % 256])

/-- State of `TelemetryRleDecoder`. -/
structure TelemetryRleDecoder where
  remainder : Option (List Nat)
  last_byte : Nat

/-- `TelemetryRleDecoder::new`. -/
def TelemetryRleDecoder.new : TelemetryRleDecoder :=
  { remainder := none, last_byte := 0 }

/-- One step of the telemetry decoding loop over the data bytes of a group:
test the top bit of the running infobyte (raw byte vs `128 ± diff` delta),
then shift the infobyte left (u8, `% 256`).  The u8 `last_byte ± diff` is
written with wraparound (`% 256`); the Rust debug build would panic on
underflow instead. -/
def telemetryDecStep (acc : Nat × Nat × List Nat) (b : Nat) : Nat × Nat × List Nat :=
  let (last, infobyte, out) := acc
  let next :=
    if 128 ≤ infobyte % 256 then b
    else
      let diff := max 128 b - min 128 b
      if 128 ≤ b then (last + diff) % 256
      else (last + 256 - diff) % 256
  (next, infobyte * 2 % 256, out ++ [next])

/-- `TelemetryRleDecoder::process_chunk` on a 9-byte group: the last byte is
the infobyte, the first 8 are data. -/
def TelemetryRleDecoder.processChunk (st : TelemetryRleDecoder) (chunk : List Nat) :
    TelemetryRleDecoder × List Nat :=
  let infobyte := chunk.getD (chunk.length - 1) 0
  let (last, _, out) := (chunk.take 8).foldl telemetryDecStep (st.last_byte, infobyte, [])
  ({ st with last_byte := last }, out)

/-- `TelemetryRleDecoder::process`: split into exact 9-chunks, store the
remainder (overwriting any previous one), decode each full chunk. -/
def TelemetryRleDecoder.process (st : TelemetryRleDecoder) (source : List Nat) :
    TelemetryRleDecoder × List Nat :=
  let (cs, r) := chunksExact 9 source
  let st := { st with remainder := if r = [] then none else some r }
  cs.foldl (fun (acc : TelemetryRleDecoder × List Nat) chunk =>
    let (st1, out1) := acc.1.processChunk chunk
    (st1, acc.2 ++ out1)) (st, [])

/-- `TelemetryRleDecoder::finish`: the stored remainder's last byte is the
infobyte, the bytes before it are data (`data[..len-1]`). -/
def TelemetryRleDecoder.finish (st : TelemetryRleDecoder) :
    TelemetryRleDecoder × List Nat :=
  match st.remainder with
  | none => (st, [])
  | some data =>
    let infobyte := data.getD (data.length - 1) 0
    let (last, _, out) := (data.take (data.length - 1)).foldl telemetryDecStep (st.last_byte, infobyte, [])
    ({ st with last_byte := last }, out)

/-- Telemetry RLE encoding of a byte sequence (one `process`, then `finish`). -/
def encodeTelemetry (v : List Nat) : List Nat :=
  runProcessFinish TelemetryRleEncoder.process TelemetryRleEncoder.finish
    TelemetryRleEncoder.new v

/-- Telemetry RLE decoding of a byte sequence (one `process`, then `finish`). -/
def decodeTelemetry (v : List Nat) : List Nat :=
  runProcessFinish TelemetryRleDecoder.process TelemetryRleDecoder.finish
    TelemetryRleDecoder.new v

/-! ## Duplicate (src/sqsh/src/processors/duplicate.rs) -/

/-- `Duplicate` has no state. -/
structure Duplicate where

/-- `Duplicate::process`: append the whole chunk to the sink. -/
def Duplicate.process (st : Duplicate) (source : List Nat) : Duplicate × List Nat :=
  (st, source)

/-- `Duplicate::finish`: emits nothing. -/
def Duplicate.finish (st : Duplicate) : Duplicate × List Nat :=
  (st, [])

/-! ## Adler32 (src/sqsh/src/processors/adler32.rs) -/

/-- State of `Adler32`: the two u16 sums. -/
structure Adler32 where
  a : Nat
  b : Nat

/-- `Adler32::new`. -/
def Adler32.new : Adler32 := { a := 1, b := 0 }

/-- The per-byte update of `Adler32::process`:
`a += byte % u16::MAX; b += a % u16::MAX` in wrapping u16 arithmetic. -/
def Adler32.update (st : Adler32) (byte : Nat) : Adler32 :=
  let a := (st.a + byte % 65535) % 65536
  let b := (st.b + a % 65535) % 65536
  { a := a, b := b }

/-- `Adler32::process`: fold the update over the chunk, append nothing. -/
def Adler32.process (st : Adler32) (source : List Nat) : Adler32 × List Nat :=
  (source.foldl Adler32.update st, [])

/-- `Adler32::finish`: appends nothing. -/
def Adler32.finish (st : Adler32) : Adler32 × List Nat :=
  (st, [])

/-- `Adler32::checksum`: the combined 32-bit value `(b << 16) | a`. -/
def Adler32.checksum (st : Adler32) : Nat :=
  (st.b <<< 16) ||| st.a

/-- An uppercase hexadecimal digit. -/
def hexDigit (n : Nat) : Char :=
  if n < 10 then Char.ofNat (48 + n) else Char.ofNat (55 + n)

/-- The Rust format `{v:#010X}` for `v < 2^32`: `0x` followed by eight
zero-padded uppercase hex digits. -/
def fmtHex32 (v : Nat) : String :=
  "0x" ++ String.mk ((List.range 8).map fun i => hexDigit (v >>> (4 * (7 - i)) % 16))

/-- The `Display` impl of `Adler32`: `Adler32<{csum:#010X}>`. -/
def Adler32.display (st : Adler32) : String :=
  "Adler32<" ++ fmtHex32 st.checksum ++ ">"

/-! ## CRC32 (src/sqsh/src/processors/crc32.rs)

The running digest lives in the external `crc` crate
(`crc32::Digest::new(crc32::IEEE)`), which is not part of this repository's
sources; it is modelled from the spec below. -/

/-- Modelled from the spec: the `crc` crate's `crc32::Digest` with the IEEE
polynomial — "state is the standard CRC32/IEEE running digest".  This is the
standard reflected CRC-32 (polynomial `0xEDB88320`, initial value
`0xFFFFFFFF`), one bit step of the remainder. -/
def crc32BitStep (z : Nat) : Nat :=
  if z % 2 = 1 then (z / 2) ^^^ 0xEDB88320 else z / 2

/-- Modelled from the spec: folding one input byte into the CRC32/IEEE
running digest (xor the byte into the low bits, then eight bit steps). -/
def crc32ByteStep (z : Nat) (b : Nat) : Nat :=
  Nat.iterate crc32BitStep 8 (z ^^^ b % 256)

/-- State of `CRC32`: the running (pre-finalization) IEEE digest. -/
structure CRC32 where
  a : Nat

/-- `CRC32::new`: a fresh IEEE digest. -/
def CRC32.new : CRC32 := { a := 0xFFFFFFFF }

/-- `CRC32::process`: write the chunk into the digest, append nothing. -/
def CRC32.process (st : CRC32) (source : List Nat) : CRC32 × List Nat :=
  ({ a := source.foldl crc32ByteStep st.a }, [])

/-- `CRC32::finish`: appends nothing. -/
def CRC32.finish (st : CRC32) : CRC32 × List Nat :=
  (st, [])

/-- Modelled from the spec: `Digest::sum32` — the finalized 32-bit digest
(final xor with `0xFFFFFFFF`). -/
def CRC32.checksum (st : CRC32) : Nat :=
  st.a ^^^ 0xFFFFFFFF

/-- The `Display` impl of `CRC32`: `CRC32<{csum:#010X}>`. -/
def CRC32.display (st : CRC32) : String :=
  "CRC32<" ++ fmtHex32 st.checksum ++ ">"

/-! ## ProbTable (src/sqsh/src/stats/probtable.rs)

The Rust table is a `HashMap<T, Rc<RefCell<Count<T>>>>` plus a
`Vec<Rc<RefCell<Count<T>>>>` sharing the same nodes.  Because every node is
inserted into both containers exactly once (keyed by its value), the whole
state is represented by the vector of nodes, and the hash-map lookup for a
value is the (unique) node carrying that value.  The table is used by the
codecs at `T = u8`; we instantiate `T` as `Nat`. -/

/-- `Count<T>`: a node holding a value, its occurrence count and its rank. -/
structure PCount where
  val : Nat
  count : Nat
  rank : Nat
deriving Inhabited

/-- Index of the first node satisfying `p` — the Rust `for` loops over
`sorted_vec` and the by-value hash lookup. -/
def firstIdxP (p : PCount → Bool) : List PCount → Option Nat
  | [] => none
  | e :: rest => if p e then some 0 else (firstIdxP p rest).map (· + 1)

/-- `ProbTable::swap(a, b)`: `sorted_vec[a].rank = b; sorted_vec[b].rank = a;
sorted_vec.swap(a, b)`.  After those three steps, position `a` holds the old
node of `b` with rank `a` and position `b` holds the old node of `a` with
rank `b`; when `a == b` the two rank writes alias the same node, leaving its
rank at `a`.  Out-of-range indices would panic in Rust (unreachable). -/
def swapNodes (l : List PCount) (a b : Nat) : List PCount :=
  match l.get? a, l.get? b with
  | some na, some nb =>
    if a = b then l.set a { na with rank := a }
    else (l.set a { nb with rank := a }).set b { na with rank := b }
  | _, _ => l

/-- `ProbTable::renormalize(ix)`: scan positions `0..=ix` for the first node
whose count is below `sorted_vec[ix]`'s count, swap `ix` down to it (or swap
in place), and return the landing position. -/
def renormalize (l : List PCount) (ix : Nat) : List PCount × Nat :=
  let ref_count := ((l.get? ix).map (·.count)).getD 0
  let r := match firstIdxP (fun e => e.count < ref_count) (l.take (ix + 1)) with
           | some i => i
           | none => ix
  (swapNodes l r ix, r)

/-- `ProbTable<T>` (only the node vector; see the section comment). -/
structure ProbTable where
  sorted_vec : List PCount

/-- `ProbTable::new`. -/
def ProbTable.new : ProbTable := ⟨[]⟩

/-- `ProbTable::insert(val)`: increment the value's node (found by the hash
lookup, i.e. the unique node with that value) and renormalize from the
node's stored rank; or append a fresh node with count 1 at the end and
renormalize from there. -/
def ProbTable.insert (t : ProbTable) (val : Nat) : ProbTable × Nat :=
  match firstIdxP (fun e => e.val == val) t.sorted_vec with
  | some i =>
    let node := t.sorted_vec.getD i default
    let (l, r) := renormalize (t.sorted_vec.set i { node with count := node.count + 1 }) node.rank
    (⟨l⟩, r)
  | none =>
    let rank := t.sorted_vec.length
    let (l, r) := renormalize (t.sorted_vec ++ [{ val := val, count := 1, rank := rank }]) rank
    (⟨l⟩, r)

/-- `ProbTable::feed`: insert every element of the slice in order. -/
def ProbTable.feed (t : ProbTable) (vals : List Nat) : ProbTable :=
  vals.foldl (fun t v => (t.insert v).1) t

/-- `ProbTable::rank(val)`: the stored rank of the value's node, if any. -/
def ProbTable.rank (t : ProbTable) (val : Nat) : Option Nat :=
  (t.sorted_vec.find? (fun e => e.val == val)).map (·.rank)

/-- `ProbTable::position(pos)`: the value stored at rank position `pos`. -/
def ProbTable.position (t : ProbTable) (pos : Nat) : Option Nat :=
  (t.sorted_vec.get? pos).map (·.val)

/-- `ProbTable::count(val)`: the occurrence count of the value's node. -/
def ProbTable.count (t : ProbTable) (val : Nat) : Option Nat :=
  (t.sorted_vec.find? (fun e => e.val == val)).map (·.count)

/-- `ProbTable::members`. -/
def ProbTable.members (t : ProbTable) : Nat :=
  t.sorted_vec.length

/-! ## Conditional (context-adaptive) RLE
(src/sqsh/src/processors/rle/conditional/mod.rs)

The code table type `RLEU8` lives in
`processors/rle/conditional/rlesortedu8.rs`, which is absent from `src/`;
it is modelled from the spec below.  The per-context map
`HashMap<Vec<u8>, ProbTable<u8>>` is an association list with unique keys
(keys are only ever added when absent, and the map is never iterated, so the
hash order is irrelevant). -/

/-- Modelled from the spec: `RLEU8`, the fixed-width code table of
`rlesortedu8.rs` (missing from `src/`) — "a fixed-width bijection between a
rank (0..2^bits) and an output symbol drawn from the low 2^bits values",
with no code for ranks at or beyond `2^bits`. -/
structure RLEU8 where
  bits : Nat

/-- Modelled from the spec: `RLEU8::encode(rank)` — the output symbol for a
rank, defined exactly for ranks below `2^bits`. -/
def RLEU8.encode (c : RLEU8) (rank : Nat) : Option Nat :=
  if rank < 2 ^ c.bits then some rank else none

/-- Modelled from the spec: `RLEU8::decode(val)` — the inverse direction of
the fixed-width bijection. -/
def RLEU8.decode (c : RLEU8) (val : Nat) : Option Nat :=
  if val < 2 ^ c.bits then some val else none

/-- The per-context table map `CtxProbTable<u8>`. -/
abbrev CtxTables : Type := List (List Nat × ProbTable)

/-- `HashMap::get` on the context map. -/
def ctxGet (ts : CtxTables) (cx : List Nat) : Option ProbTable :=
  (List.find? (fun e => e.1 == cx) ts).map (·.2)

/-- `HashMap` update of an existing key's table. -/
def ctxSet (ts : CtxTables) (cx : List Nat) (t : ProbTable) : CtxTables :=
  List.map (fun e => if e.1 = cx then (cx, t) else e) ts

/-- The seeded table built by `single_update` for a fresh context: feed all
of `0..=u8::MAX`, then insert the real value.  Since `feed` is exactly the
fold of `insert` over a slice, the two steps are written as one `feed` over
the concatenated value list. -/
def seededTable (val : Nat) : ProbTable :=
  ProbTable.new.feed (List.range 256 ++ [val])

/-- `single_update(cx, val)` (identical in `ConditionalRleEncoder` and
`ConditionalRleDecoder`): insert into the context's table, or create a
seeded table for the new context. -/
def singleUpdate (ts : CtxTables) (cx : List Nat) (val : Nat) : CtxTables :=
  match ctxGet ts cx with
  | some t => ctxSet ts cx (t.insert val).1
  | none => ts ++ [(cx, seededTable val)]

/-- The first loop of `full_update`: `for val in bytes.iter().take(order)`
with the growing context vector `v`. -/
def fullUpdateTakeLoop (ts : CtxTables) (v : List Nat) : List Nat → CtxTables × List Nat
  | [] => (ts, v)
  | b :: rest => fullUpdateTakeLoop (singleUpdate ts v b) (v ++ [b]) rest

/-- The second loop of `full_update`: `for window in bytes.windows(order+1)`,
updating context `window[..order]` with value `window[order]`. -/
def fullUpdateWinLoop (order : Nat) (ts : CtxTables) : List Nat → CtxTables
  | [] => ts
  | b :: rest =>
    if order ≤ rest.length then
      fullUpdateWinLoop order
        (singleUpdate ts ((b :: rest).take order) ((b :: rest).getD order 0)) rest
    else ts

/-- `full_update(bytes)` (identical in encoder and decoder). -/
def fullUpdate (order : Nat) (ts : CtxTables) (bytes : List Nat) : CtxTables :=
  fullUpdateWinLoop order (fullUpdateTakeLoop ts [] (bytes.take order)).1 bytes

/-- State of `ConditionalRleEncoder`. -/
structure ConditionalRleEncoder where
  order : Nat
  ctx_tables : CtxTables
  code_table : RLEU8

/-- `ConditionalRleEncoder::with_order_with_bitlength` (the constructor
asserts `0 < length ≤ 8`). -/
def ConditionalRleEncoder.withOrderWithBitlength (order length : Nat) : ConditionalRleEncoder :=
  { order := order, ctx_tables := [], code_table := { bits := length } }

/-- The option chain of `ConditionalRleEncoder::encode(cx, next)`:
`ctx_tables.get(cx).and_then(|t| t.rank(&next)).and_then(|rank| code_table.encode(rank))`.
The encoder falls back to the raw symbol exactly when this chain is `none`. -/
def condEncodeChain (ts : CtxTables) (code : RLEU8) (cx : List Nat) (next : Nat) :
    Option Nat :=
  ((ctxGet ts cx).bind fun t => t.rank next).bind code.encode

/-- `ConditionalRleEncoder::encode(cx, next)`: rank-then-code chain with the
raw symbol as fallback (`unwrap_or(&next)`). -/
def ConditionalRleEncoder.encodeByte (st : ConditionalRleEncoder) (cx : List Nat)
    (next : Nat) : Nat :=
  (condEncodeChain st.ctx_tables st.code_table cx next).getD next

/-- The first encoding loop of `ConditionalRleEncoder::process`
(`bytes.iter().take(order)` with the growing context `v`). -/
def condEncTakeLoop (st : ConditionalRleEncoder) (v : List Nat) : List Nat → List Nat
  | [] => []
  | b :: rest => st.encodeByte v b :: condEncTakeLoop st (v ++ [b]) rest

/-- The window encoding loop of `ConditionalRleEncoder::process`
(`bytes.windows(order+1)`). -/
def condEncWinLoop (st : ConditionalRleEncoder) : List Nat → List Nat
  | [] => []
  | b :: rest =>
    if st.order ≤ rest.length then
      st.encodeByte ((b :: rest).take st.order) ((b :: rest).getD st.order 0) ::
        condEncWinLoop st rest
    else []

/-- `ConditionalRleEncoder::process`: encode all bytes against the current
tables, then `full_update` with the processed bytes (the loop count always
equals `bytes.len()`, so `&bytes[..result]` is the whole chunk). -/
def ConditionalRleEncoder.process (st : ConditionalRleEncoder) (bytes : List Nat) :
    ConditionalRleEncoder × List Nat :=
  let out := condEncTakeLoop st [] (bytes.take st.order) ++ condEncWinLoop st bytes
  ({ st with ctx_tables := fullUpdate st.order st.ctx_tables bytes }, out)

/-- `ConditionalRleEncoder::finish`: emits nothing. -/
def ConditionalRleEncoder.finish (st : ConditionalRleEncoder) :
    ConditionalRleEncoder × List Nat :=
  (st, [])

/-- State of `ConditionalRleDecoder`. -/
structure ConditionalRleDecoder where
  order : Nat
  tables : CtxTables
  code : RLEU8

/-- `ConditionalRleDecoder::with_order_with_bitlength`. -/
def ConditionalRleDecoder.withOrderWithBitlength (order length : Nat) : ConditionalRleDecoder :=
  { order := order, tables := [], code := { bits := length } }

/-- `ConditionalRleDecoder::decode(cx, val)`: decode the code to a rank,
resolve it through the context's table (`position`), falling back to the
code table's image of the rank.  The two `unwrap()` calls (which panic when
`val` has no rank in the code width — unreachable at the default 8-bit
width) are written with default `0`. -/
def ConditionalRleDecoder.decodeByte (st : ConditionalRleDecoder) (cx : List Nat)
    (val : Nat) : Nat :=
  let decoded_val := (st.code.decode val).getD 0
  ((ctxGet st.tables cx).bind fun t => t.position decoded_val).getD
    ((st.code.encode decoded_val).getD 0)

/-- The first decoding loop of `ConditionalRleDecoder::process`
(`byte.iter().take(order)`, context `v` grown with decoded symbols);
returns the decoded symbols and the final context. -/
def condDecTakeLoop (st : ConditionalRleDecoder) (v : List Nat) :
    List Nat → List Nat × List Nat
  | [] => ([], v)
  | b :: rest =>
    let d := st.decodeByte v b
    let (ds, vfin) := condDecTakeLoop st (v ++ [d]) rest
    (d :: ds, vfin)

/-- The second decoding loop of `ConditionalRleDecoder::process`
(`byte.iter().skip(order)`, context window rotated:
`v.rotate_left(1); v[order-1] = decoded`). -/
def condDecSkipLoop (st : ConditionalRleDecoder) (v : List Nat) : List Nat → List Nat
  | [] => []
  | b :: rest =>
    let d := st.decodeByte v b
    let vnext := if 0 < st.order then (v.drop 1 ++ v.take 1).set (st.order - 1) d else v
    d :: condDecSkipLoop st vnext rest

/-- `ConditionalRleDecoder::process`: decode all bytes (the sink and the
`update_vector` receive the same decoded symbols), then `full_update` with
the decoded symbols. -/
def ConditionalRleDecoder.process (st : ConditionalRleDecoder) (bytes : List Nat) :
    ConditionalRleDecoder × List Nat :=
  let (ds1, v1) := condDecTakeLoop st [] (bytes.take st.order)
  let ds2 := condDecSkipLoop st v1 (bytes.drop st.order)
  let upd := ds1 ++ ds2
  ({ st with tables := fullUpdate st.order st.tables upd }, upd)

/-- `ConditionalRleDecoder::finish`: emits nothing. -/
def ConditionalRleDecoder.finish (st : ConditionalRleDecoder) :
    ConditionalRleDecoder × List Nat :=
  (st, [])

/-! ## Chunked driving

`Stream::consume` (src/sqsh/src/core/stream.rs) feeds the processor one
buffer-sized chunk at a time and writes each output straight to the sink,
then calls `finish`; the bytes written to the sink are therefore the
concatenated outputs of the `process` calls followed by the `finish`
output. -/

/-- Feed a sequence of chunks through `process`, concatenating the outputs. -/
def runChunks {σ : Type} (proc : σ → List Nat → σ × List Nat) :
    σ → List (List Nat) → σ × List Nat
  | st, [] => (st, [])
  | st, c :: cs =>
    ((runChunks proc (proc st c).1 cs).1,
      (proc st c).2 ++ (runChunks proc (proc st c).1 cs).2)

/-- All bytes a `Stream` with the given chunking writes to the sink:
the chunk outputs followed by the `finish` output. -/
def runChunksFinish {σ : Type} (proc : σ → List Nat → σ × List Nat)
    (fin : σ → σ × List Nat) (st : σ) (chunks : List (List Nat)) : List Nat :=
  (runChunks proc st chunks).2 ++ (fin (runChunks proc st chunks).1).2

/-- The bytes of an ASCII string, as the Rust `as_bytes`. -/
def strBytes (s : String) : List Nat :=
  s.data.map Char.toNat

/-! ## Invariant predicates for the rank table and the context maps -/

/-- Every node's stored rank equals its index in `sorted_vec`. -/
def ranksAligned (l : List PCount) : Prop :=
  ∀ (i : Nat) (e : PCount), l[i]? = some e → e.rank = i

/-- Counts are non-increasing when `sorted_vec` is read in rank order. -/
def countsDesc (l : List PCount) : Prop :=
  ∀ (i j : Nat) (e f : PCount), i ≤ j → l[i]? = some e → l[j]? = some f →
    f.count ≤ e.count

/-- Every node's count is at least 1. -/
def countsPos (l : List PCount) : Prop :=
  ∀ e ∈ l, 1 ≤ e.count

/-- Some node carries the value `x`. -/
def hasVal (l : List PCount) (x : Nat) : Prop :=
  ∃ e ∈ l, e.val = x

/-- The table has a node for every byte value. -/
def tableFull (t : ProbTable) : Prop :=
  ∀ b : Nat, b < 256 → (t.rank b).isSome = true

/-- Every context's table in the map has a node for every byte value. -/
def ctxAllFull (ts : CtxTables) : Prop :=
  ∀ e ∈ ts, tableFull e.2

/-- The conditional encoder state reached from a fresh
`with_order_with_bitlength(o, bits)` encoder by a sequence of `process`
calls. -/
def encStateAfter (o bits : Nat) (css : List (List Nat)) : ConditionalRleEncoder :=
  (runChunks ConditionalRleEncoder.process
    (ConditionalRleEncoder.withOrderWithBitlength o bits) css).1

/-- The conditional decoder state reached from a fresh
`with_order_with_bitlength(o, bits)` decoder by a sequence of `process`
calls. -/
def decStateAfter (o bits : Nat) (css : List (List Nat)) : ConditionalRleDecoder :=
  (runChunks ConditionalRleDecoder.process
    (ConditionalRleDecoder.withOrderWithBitlength o bits) css).1

/-! # Theorems -/

/-! ## Chunk-splitting lemmas -/

/-- Byte-wise processing composes over chunk concatenation. -/
theorem streamProcessChunk_append {σ : Type} (f : σ → Nat → σ × List Nat)
    (l1 l2 : List Nat) (st : σ) :
    streamProcessChunk f st (l1 ++ l2) =
      ((streamProcessChunk f (streamProcessChunk f st l1).1 l2).1,
        (streamProcessChunk f st l1).2 ++
          (streamProcessChunk f (streamProcessChunk f st l1).1 l2).2) := by
  induction l1 generalizing st with
  | nil => simp [streamProcessChunk]
  | cons b bs ih => simp [streamProcessChunk, ih, List.append_assoc]

/-- For a byte-wise processor (the blanket `StreamProcess` impl), feeding
chunks one at a time is the same as feeding the concatenation. -/
theorem runChunks_streamProcessChunk {σ : Type} (f : σ → Nat → σ × List Nat)
    (chunks : List (List Nat)) (st : σ) :
    runChunks (streamProcessChunk f) st chunks = streamProcessChunk f st chunks.flatten := by
  induction chunks generalizing st with
  | nil => simp [runChunks, streamProcessChunk]
  | cons c cs ih => simp [runChunks, ih, streamProcessChunk_append]

/-- `Duplicate` copies every chunk through unchanged. -/
theorem runChunks_duplicate (chunks : List (List Nat)) (st : Duplicate) :
    runChunks Duplicate.process st chunks = (st, chunks.flatten) := by
  induction chunks with
  | nil => simp [runChunks]
  | cons c cs ih => simp [runChunks, Duplicate.process, ih]

/-- `Adler32::process` never writes to the sink. -/
theorem runChunks_adler32_out (chunks : List (List Nat)) (st : Adler32) :
    (runChunks Adler32.process st chunks).2 = [] := by
  induction chunks generalizing st with
  | nil => simp [runChunks]
  | cons c cs ih => simp [runChunks, Adler32.process, ih]

/-- `CRC32::process` never writes to the sink. -/
theorem runChunks_crc32_out (chunks : List (List Nat)) (st : CRC32) :
    (runChunks CRC32.process st chunks).2 = [] := by
  induction chunks generalizing st with
  | nil => simp [runChunks]
  | cons c cs ih => simp [runChunks, CRC32.process, ih]

/-! ## Claim C1 — classic RLE round trip -/

/-- C1: the classic RLE round trip fails on the code as written.  At
threshold 2, the sequence `[0, 0]` encodes to `[0, 0, 0]` (two symbols plus
the count byte 0), but the decoder — which tests `byte == last_symbol`
before `repetition == max_threshold` — reads the count byte as a third
repetition and emits `[0, 0, 0]` instead of `[0, 0]`. -/
theorem c1_classic_roundtrip_fails_on_symbol_valued_count :
    encodeClassic [0, 0] 2 = [0, 0, 0] ∧
    decodeClassic [0, 0, 0] 2 = [0, 0, 0] ∧
    decodeClassic (encodeClassic [0, 0] 2) 2 ≠ [0, 0] := by
  decide

/-! ## Claim C3 — telemetry RLE round trip -/

/-- C3: the telemetry round trip fails for partial trailing groups whose
info bit is set.  For `v = [200]`, `finish` emits the raw byte 200 with
infobyte 1 (the info bit packed into the low bit), but the decoder's
`finish` reads info bits from the top bit down, sees 0, treats 200 as a
delta `+72`, and reconstructs `[72]`. -/
theorem c3_telemetry_roundtrip_fails_on_trailing_group :
    encodeTelemetry [200] = [200, 1] ∧
    decodeTelemetry [200, 1] = [72] ∧
    decodeTelemetry (encodeTelemetry [200]) ≠ [200] := by
  decide

/-! ## Claim C7 — classic RLE concrete encoding -/

/-- C7: encoding `"Aweeeeee"` at threshold 2 emits `[65, 119, 101, 101, 4]` —
the symbol repeated `max_threshold` times followed by the count byte
`repetition - max_threshold`. -/
theorem c7_classic_encodes_aweeeeee :
    encodeClassic (strBytes "Aweeeeee") 2 = [65, 119, 101, 101, 4] ∧
    encodeClassic [65, 119, 101, 101, 101, 101, 101, 101] 2 = [65, 119, 101, 101, 4] := by
  decide

/-! ## Claim C8 — lossy RLE reduced-form round trip -/

/-- C8: `decode_lossy(encode_lossy("aaabcde", 2))` is exactly `"aaaeeee"`,
not the original input; and the decoder expands every `(symbol, count)`
pair into `count + 1` copies of the symbol. -/
theorem c8_lossy_reduced_roundtrip :
    (decodeLossy (encodeLossy (strBytes "aaabcde") 2) = strBytes "aaaeeee" ∧
      decodeLossy (encodeLossy (strBytes "aaabcde") 2) ≠ strBytes "aaabcde") ∧
    ∀ s c : Nat, decodeLossy [s, c] = List.replicate (c + 1) s := by
  refine ⟨by decide, fun s c => ?_⟩
  simp [decodeLossy, runProcessFinish, LossyRleDecoder.process, streamProcessChunk,
    LossyRleDecoder.processByte, LossyRleDecoder.finishByte, LossyRleDecoder.new]

/-! ## Claim C9 — checksum values -/

/-- C9: the Adler32 state after processing `"Wikipedia"` has combined
checksum `0x11E60398`, and a fresh CRC32 digest (no bytes processed)
has checksum `0x00000000`. -/
theorem c9_checksum_values :
    (Adler32.process Adler32.new (strBytes "Wikipedia")).1.checksum = 0x11E60398 ∧
    CRC32.new.checksum = 0x00000000 := by
  decide

/-! ## Claim C4 — checksum emission at finish -/

/-- C4 counterexample: `finish` of the checksum processors appends nothing
to the sink.  A fresh `Adler32` (or `CRC32`) finishes with an empty sink
delta, while the claimed human-readable rendering — which the code only
produces through its `Display` impl — is the non-empty
`Adler32<0x00000001>` (resp. `CRC32<0x00000000>`). -/
theorem c4_finish_appends_no_bytes :
    (Adler32.finish Adler32.new).2 = [] ∧
    (CRC32.finish CRC32.new).2 = [] ∧
    Adler32.display Adler32.new = "Adler32<0x00000001>" ∧
    CRC32.display CRC32.new = "CRC32<0x00000000>" ∧
    strBytes (Adler32.display Adler32.new) ≠ [] := by
  decide

/-- C4 (amended): for every input, the checksum processors' `process`
appends no bytes to the sink and `finish` appends none either; the
human-readable string of the form `<AlgorithmName><hex-value>` is produced
by the `Display` implementation — for `Adler32` rendering the combined
value `(b <<< 16) ||| a`, for `CRC32` the formatted 32-bit IEEE digest. -/
theorem c4_checksum_output_amended (s : List Nat) :
    (Adler32.process Adler32.new s).2 = [] ∧
    (Adler32.finish (Adler32.process Adler32.new s).1).2 = [] ∧
    Adler32.display (Adler32.process Adler32.new s).1 =
      "Adler32<" ++ fmtHex32 (((Adler32.process Adler32.new s).1.b <<< 16) |||
        (Adler32.process Adler32.new s).1.a) ++ ">" ∧
    (CRC32.process CRC32.new s).2 = [] ∧
    (CRC32.finish (CRC32.process CRC32.new s).1).2 = [] ∧
    CRC32.display (CRC32.process CRC32.new s).1 =
      "CRC32<" ++ fmtHex32 ((CRC32.process CRC32.new s).1.checksum) ++ ">" := by
  refine ⟨rfl, rfl, rfl, rfl, rfl, rfl⟩

/-! ## Claim C6 — conditional RLE order-0 identity on the reference source -/

/-- C6: a conditional RLE encoder of order 0 (default 8-bit code width)
emits the reference source unchanged from a single `process` call: the
context tables are empty throughout the encoding pass (`full_update` only
runs afterwards), so every symbol takes the raw fallback. -/
theorem c6_conditional_order0_identity :
    (ConditionalRleEncoder.process (ConditionalRleEncoder.withOrderWithBitlength 0 8)
        [3, 4, 3, 3, 4, 5, 5, 5, 7, 7, 7, 7, 7, 7, 7, 2, 1]).2 =
      [3, 4, 3, 3, 4, 5, 5, 5, 7, 7, 7, 7, 7, 7, 7, 2, 1] := by
  decide

/-! ## Claim C2 — chunking and output -/

/-- C2 counterexample: splitting the input changes the telemetry encoder's
output.  Feeding `[5, 6]` as one chunk emits `[133, 129, 0]`, while feeding
`[5]` then `[6]` emits `[134, 0]`: `process` overwrites the stored
remainder of the previous call instead of carrying it. -/
theorem c2_telemetry_chunking_changes_output :
    runChunksFinish TelemetryRleEncoder.process TelemetryRleEncoder.finish
        TelemetryRleEncoder.new [[5], [6]] = [134, 0] ∧
    runChunksFinish TelemetryRleEncoder.process TelemetryRleEncoder.finish
        TelemetryRleEncoder.new [[5, 6]] = [133, 129, 0] ∧
    runChunksFinish TelemetryRleEncoder.process TelemetryRleEncoder.finish
        TelemetryRleEncoder.new [[5], [6]] ≠
      runChunksFinish TelemetryRleEncoder.process TelemetryRleEncoder.finish
        TelemetryRleEncoder.new [[5, 6]] := by
  decide

/-- Chunked driving of a byte-wise (blanket `StreamProcess`) processor
writes the same bytes as a single `process` call on the concatenation. -/
theorem runChunksFinish_streamProcess {σ : Type} (f : σ → Nat → σ × List Nat)
    (fin : σ → σ × List Nat) (st : σ) (chunks : List (List Nat)) :
    runChunksFinish (streamProcessChunk f) fin st chunks =
      runProcessFinish (streamProcessChunk f) fin st chunks.flatten := by
  simp [runChunksFinish, runProcessFinish, runChunks_streamProcessChunk]

/-- C2 (amended): the chunking of the input does not affect the bytes
written to the sink for the byte-wise and checksum processors — Duplicate,
Adler32, CRC32, and the classic and lossy RLE encoders and decoders (for
any thresholds `t`, `u`, `w`).  It does affect the output of the telemetry
RLE encoder and decoder, whose `process` overwrites the carried remainder,
as the two concrete splits show. -/
theorem c2_chunking_amended (chunks : List (List Nat)) (t u w : Nat) :
    (runChunksFinish Duplicate.process Duplicate.finish {} chunks =
        runProcessFinish Duplicate.process Duplicate.finish {} chunks.flatten) ∧
    (runChunksFinish Adler32.process Adler32.finish Adler32.new chunks =
        runProcessFinish Adler32.process Adler32.finish Adler32.new chunks.flatten) ∧
    (runChunksFinish CRC32.process CRC32.finish CRC32.new chunks =
        runProcessFinish CRC32.process CRC32.finish CRC32.new chunks.flatten) ∧
    (runChunksFinish RleClassicEncoder.process RleClassicEncoder.finishByte
        (RleClassicEncoder.withThreshold t) chunks =
      runProcessFinish RleClassicEncoder.process RleClassicEncoder.finishByte
        (RleClassicEncoder.withThreshold t) chunks.flatten) ∧
    (runChunksFinish RleClassicDecoder.process RleClassicDecoder.finishByte
        (RleClassicDecoder.withThreshold u) chunks =
      runProcessFinish RleClassicDecoder.process RleClassicDecoder.finishByte
        (RleClassicDecoder.withThreshold u) chunks.flatten) ∧
    (runChunksFinish LossyRleEncoder.process LossyRleEncoder.finishByte
        (LossyRleEncoder.withThreshold w) chunks =
      runProcessFinish LossyRleEncoder.process LossyRleEncoder.finishByte
        (LossyRleEncoder.withThreshold w) chunks.flatten) ∧
    (runChunksFinish LossyRleDecoder.process LossyRleDecoder.finishByte
        LossyRleDecoder.new chunks =
      runProcessFinish LossyRleDecoder.process LossyRleDecoder.finishByte
        LossyRleDecoder.new chunks.flatten) ∧
    (runChunksFinish TelemetryRleEncoder.process TelemetryRleEncoder.finish
        TelemetryRleEncoder.new [[1], [2]] ≠
      runChunksFinish TelemetryRleEncoder.process TelemetryRleEncoder.finish
        TelemetryRleEncoder.new [[1, 2]]) ∧
    (runChunksFinish TelemetryRleDecoder.process TelemetryRleDecoder.finish
        TelemetryRleDecoder.new [[129], [129, 0]] ≠
      runChunksFinish TelemetryRleDecoder.process TelemetryRleDecoder.finish
        TelemetryRleDecoder.new [[129, 129, 0]]) := by
  refine ⟨?_, ?_, ?_, ?_, ?_, ?_, ?_, by decide, by decide⟩
  · simp [runChunksFinish, runProcessFinish, runChunks_duplicate, Duplicate.process,
      Duplicate.finish]
  · simp [runChunksFinish, runProcessFinish, runChunks_adler32_out, Adler32.process,
      Adler32.finish]
  · simp [runChunksFinish, runProcessFinish, runChunks_crc32_out, CRC32.process,
      CRC32.finish]
  · exact runChunksFinish_streamProcess RleClassicEncoder.processByte
      RleClassicEncoder.finishByte _ chunks
  · exact runChunksFinish_streamProcess RleClassicDecoder.processByte
      RleClassicDecoder.finishByte _ chunks
  · exact runChunksFinish_streamProcess LossyRleEncoder.processByte
      LossyRleEncoder.finishByte _ chunks
  · exact runChunksFinish_streamProcess LossyRleDecoder.processByte
      LossyRleDecoder.finishByte _ chunks

/-! ## firstIdxP specification -/

theorem firstIdxP_some_lt {p : PCount → Bool} {l : List PCount} {r : Nat}
    (h : firstIdxP p l = some r) : r < l.length := by
  induction l generalizing r with
  | nil => simp [firstIdxP] at h
  | cons e rest ih =>
    simp only [firstIdxP] at h
    by_cases hp : p e
    · simp [hp] at h; subst h; simp
    · simp [hp] at h
      obtain ⟨r0, hr0, rfl⟩ := h
      have := ih hr0
      simp; omega

theorem firstIdxP_some_hit {p : PCount → Bool} {l : List PCount} {r : Nat}
    (h : firstIdxP p l = some r) (hr : r < l.length) : p l[r] = true := by
  induction l generalizing r with
  | nil => simp [firstIdxP] at h
  | cons e rest ih =>
    simp only [firstIdxP] at h
    by_cases hp : p e
    · simp [hp] at h; subst h; simpa using hp
    · simp [hp] at h
      obtain ⟨r0, hr0, rfl⟩ := h
      have hlt := firstIdxP_some_lt hr0
      simpa using ih hr0 hlt

theorem firstIdxP_some_min {p : PCount → Bool} {l : List PCount} {r : Nat}
    (h : firstIdxP p l = some r) :
    ∀ (k : Nat) (hk : k < l.length), k < r → p l[k] = false := by
  induction l generalizing r with
  | nil => simp [firstIdxP] at h
  | cons e rest ih =>
    simp only [firstIdxP] at h
    by_cases hp : p e
    · simp [hp] at h; omega
    · simp [hp] at h
      obtain ⟨r0, hr0, rfl⟩ := h
      intro k hk hkr
      match k with
      | 0 => simpa using hp
      | k + 1 =>
        have := ih hr0 k (by simpa using hk) (by omega)
        simpa using this

theorem firstIdxP_none {p : PCount → Bool} {l : List PCount}
    (h : firstIdxP p l = none) :
    ∀ (k : Nat) (hk : k < l.length), p l[k] = false := by
  induction l with
  | nil => intro k hk; simp at hk
  | cons e rest ih =>
    simp only [firstIdxP] at h
    by_cases hp : p e
    · simp [hp] at h
    · simp [hp] at h
      intro k hk
      match k with
      | 0 => simpa using hp
      | k + 1 =>
        have := ih h k (by simpa using hk)
        simpa using this

theorem firstIdxP_isSome_of {p : PCount → Bool} {l : List PCount} {k : Nat}
    (hk : k < l.length) (hp : p l[k] = true) : (firstIdxP p l).isSome = true := by
  cases h : firstIdxP p l with
  | some r => rfl
  | none => exact absurd hp (by simp [firstIdxP_none h k hk])

/-! ## swapNodes specification -/

theorem swapNodes_length (l : List PCount) (a b : Nat) :
    (swapNodes l a b).length = l.length := by
  unfold swapNodes
  cases ha : l.get? a <;> cases hb : l.get? b <;> simp
  split <;> simp

theorem swapNodes_getElem? (l : List PCount) (a b : Nat)
    (ha : a < l.length) (hb : b < l.length) (i : Nat) (hi : i < l.length) :
    (swapNodes l a b)[i]? =
      some (if i = a then { l[b] with rank := a }
            else if i = b then { l[a] with rank := b }
            else l[i]) := by
  unfold swapNodes
  rw [List.get?_eq_get ha, List.get?_eq_get hb]
  simp only [List.get_eq_getElem]
  by_cases hab : a = b
  · subst hab
    rw [if_pos rfl, List.getElem?_set]
    by_cases hia : i = a
    · subst hia; simp [hi]
    · simp [Ne.symm hia, hia, List.getElem?_eq_getElem hi]
  · rw [if_neg hab]
    simp only [List.getElem?_set, List.length_set]
    by_cases hbi : b = i
    · subst hbi
      have h1 : ¬ b = a := fun h => hab h.symm
      simp [hb, h1]
    · by_cases hai : a = i
      · subst hai
        have h1 : ¬ a = b := hab
        simp [ha, hbi, h1]
      · have h1 : ¬ i = a := fun h => hai h.symm
        have h2 : ¬ i = b := fun h => hbi h.symm
        simp [hai, hbi, h1, h2, List.getElem?_eq_getElem hi]

/-- Out-of-range swaps leave the list unchanged. -/
theorem swapNodes_oob (l : List PCount) (a b : Nat)
    (h : l.length ≤ a ∨ l.length ≤ b) : swapNodes l a b = l := by
  unfold swapNodes
  cases ha : l.get? a <;> cases hb : l.get? b <;> simp
  exfalso
  rcases h with h | h
  · rw [List.get?_eq_none.2 h] at ha; exact Option.noConfusion ha
  · rw [List.get?_eq_none.2 h] at hb; exact Option.noConfusion hb

/-! ## Value/count correspondence under swapping -/

theorem swapNodes_corr_new (l : List PCount) (a b : Nat) :
    ∀ (i : Nat) (e : PCount), (swapNodes l a b)[i]? = some e →
      ∃ (j : Nat) (f : PCount), l[j]? = some f ∧ e.val = f.val ∧ e.count = f.count := by
  intro i e he
  by_cases hab : a < l.length ∧ b < l.length
  · have hi : i < l.length := by
      have := (List.getElem?_eq_some.1 he).1
      rwa [swapNodes_length] at this
    rw [swapNodes_getElem? l a b hab.1 hab.2 i hi] at he
    have he' := Option.some.inj he
    by_cases hia : i = a
    · exact ⟨b, l[b], List.getElem?_eq_getElem hab.2, by simp [← he', hia]⟩
    · by_cases hib : i = b
      · have hba : ¬ b = a := fun h => hia (hib.trans h)
        exact ⟨a, l[a], List.getElem?_eq_getElem hab.1, by simp [← he', hia, hib, hba]⟩
      · exact ⟨i, l[i], List.getElem?_eq_getElem hi, by simp [← he', hia, hib]⟩
  · rw [swapNodes_oob l a b (by omega)] at he
    exact ⟨i, e, he, rfl, rfl⟩

theorem swapNodes_corr_old (l : List PCount) (a b : Nat) :
    ∀ (j : Nat) (f : PCount), l[j]? = some f →
      ∃ (i : Nat) (e : PCount), (swapNodes l a b)[i]? = some e ∧ e.val = f.val ∧
        e.count = f.count := by
  intro j f hf
  have hj : j < l.length := (List.getElem?_eq_some.1 hf).1
  have hfv : l[j] = f := by
    have := List.getElem?_eq_getElem hj
    rw [this] at hf; exact Option.some.inj hf
  by_cases hab : a < l.length ∧ b < l.length
  · by_cases hja : j = a
    · refine ⟨b, { l[a] with rank := b }, ?_, by simp [← hfv, hja], by simp [← hfv, hja]⟩
      rw [swapNodes_getElem? l a b hab.1 hab.2 b hab.2]
      by_cases hba : b = a
      · simp [hba]
      · simp [hba]
    · by_cases hjb : j = b
      · refine ⟨a, { l[b] with rank := a }, ?_, by simp [← hfv, hjb], by simp [← hfv, hjb]⟩
        rw [swapNodes_getElem? l a b hab.1 hab.2 a hab.1]
        simp
      · refine ⟨j, l[j], ?_, by simp [hfv], by simp [hfv]⟩
        rw [swapNodes_getElem? l a b hab.1 hab.2 j hj]
        simp [hja, hjb]
  · rw [swapNodes_oob l a b (by omega)]
    exact ⟨j, f, hf, rfl, rfl⟩

/-! ## renormalize specification -/

theorem renormalize_eq_swap (l : List PCount) (ix : Nat) :
    ∃ r : Nat, (renormalize l ix).1 = swapNodes l r ix := by
  cases hf : firstIdxP (fun e => decide (e.count < ((l[ix]?).map (·.count)).getD 0))
      (l.take (ix + 1)) with
  | none => exact ⟨ix, by simp [renormalize, List.get?_eq_getElem?, hf]⟩
  | some i => exact ⟨i, by simp [renormalize, List.get?_eq_getElem?, hf]⟩

theorem renormalize_length (l : List PCount) (ix : Nat) :
    (renormalize l ix).1.length = l.length := by
  obtain ⟨r, hr⟩ := renormalize_eq_swap l ix
  rw [hr, swapNodes_length]

theorem renormalize_corr_new (l : List PCount) (ix : Nat) :
    ∀ (i : Nat) (e : PCount), (renormalize l ix).1[i]? = some e →
      ∃ (j : Nat) (f : PCount), l[j]? = some f ∧ e.val = f.val ∧ e.count = f.count := by
  obtain ⟨r, hr⟩ := renormalize_eq_swap l ix
  rw [hr]
  exact swapNodes_corr_new l r ix

theorem renormalize_corr_old (l : List PCount) (ix : Nat) :
    ∀ (j : Nat) (f : PCount), l[j]? = some f →
      ∃ (i : Nat) (e : PCount), (renormalize l ix).1[i]? = some e ∧ e.val = f.val ∧
        e.count = f.count := by
  obtain ⟨r, hr⟩ := renormalize_eq_swap l ix
  rw [hr]
  exact swapNodes_corr_old l r ix

/-- The sorted-order and rank invariants after swapping the promoted node at
`ix` into a strictly-smaller-count position `r < ix` found by the
renormalize scan. -/
theorem swap_inv_found (l : List PCount) (ix r : Nat) (hix : ix < l.length)
    (hrix : r < ix)
    (hA : ∀ (i j : Nat) (hi : i < l.length) (hj : j < l.length), i ≤ j → j ≠ ix →
      l[j].count ≤ l[i].count)
    (hB : ∀ (i : Nat) (hi : i < l.length), i < ix → l[ix].count ≤ l[i].count + 1)
    (hR : ranksAligned l)
    (hhit : l[r].count < l[ix].count)
    (hmin : ∀ (k : Nat) (hk : k < l.length), k < r → l[ix].count ≤ l[k].count) :
    countsDesc (swapNodes l r ix) ∧ ranksAligned (swapNodes l r ix) := by
  have hrl : r < l.length := by omega
  have hget := swapNodes_getElem? l r ix hrl hix
  constructor
  · intro i j e f hij he hf
    have hi : i < l.length := by
      have := (List.getElem?_eq_some.1 he).1
      rwa [swapNodes_length] at this
    have hj : j < l.length := by
      have := (List.getElem?_eq_some.1 hf).1
      rwa [swapNodes_length] at this
    rw [hget i hi] at he
    rw [hget j hj] at hf
    have he' : e = _ := (Option.some.inj he).symm
    have hf' : f = _ := (Option.some.inj hf).symm
    have hec : e.count = if i = r then l[ix].count else if i = ix then l[r].count
        else l[i].count := by
      rw [he']; split_ifs <;> rfl
    have hfc : f.count = if j = r then l[ix].count else if j = ix then l[r].count
        else l[j].count := by
      rw [hf']; split_ifs <;> rfl
    rw [hec, hfc]
    by_cases hjr : j = r
    · rw [if_pos hjr]
      by_cases hir : i = r
      · rw [if_pos hir]
      · rw [if_neg hir]
        have hiix : ¬ i = ix := by omega
        rw [if_neg hiix]
        exact hmin i hi (by omega)
    · rw [if_neg hjr]
      by_cases hjix : j = ix
      · rw [if_pos hjix]
        by_cases hir : i = r
        · rw [if_pos hir]; omega
        · rw [if_neg hir]
          by_cases hiix : i = ix
          · rw [if_pos hiix]
          · rw [if_neg hiix]
            by_cases hilt : i < r
            · have h1 := hmin i hi hilt
              omega
            · have h2 := hB i hi (by omega)
              omega
      · rw [if_neg hjix]
        by_cases hir : i = r
        · rw [if_pos hir]
          have h1 := hA r j hrl hj (by omega) hjix
          omega
        · rw [if_neg hir]
          by_cases hiix : i = ix
          · rw [if_pos hiix]
            have h1 := hA r j hrl hj (by omega) hjix
            omega
          · rw [if_neg hiix]
            exact hA i j hi hj hij hjix
  · intro i e he
    have hi : i < l.length := by
      have := (List.getElem?_eq_some.1 he).1
      rwa [swapNodes_length] at this
    rw [hget i hi] at he
    have he' : e = _ := (Option.some.inj he).symm
    have hr := hR i l[i] (List.getElem?_eq_getElem hi)
    rw [he']
    split_ifs with h1 h2
    · simp [h1]
    · simp [h2]
    · exact hr

/-- The invariants after the in-place swap when the renormalize scan finds
no strictly smaller count among positions `0..=ix`. -/
theorem swap_inv_self (l : List PCount) (ix : Nat) (hix : ix < l.length)
    (hA : ∀ (i j : Nat) (hi : i < l.length) (hj : j < l.length), i ≤ j → j ≠ ix →
      l[j].count ≤ l[i].count)
    (hR : ranksAligned l)
    (hnone : ∀ (k : Nat) (hk : k < l.length), k ≤ ix → l[ix].count ≤ l[k].count) :
    countsDesc (swapNodes l ix ix) ∧ ranksAligned (swapNodes l ix ix) := by
  have hget := swapNodes_getElem? l ix ix hix hix
  constructor
  · intro i j e f hij he hf
    have hi : i < l.length := by
      have := (List.getElem?_eq_some.1 he).1
      rwa [swapNodes_length] at this
    have hj : j < l.length := by
      have := (List.getElem?_eq_some.1 hf).1
      rwa [swapNodes_length] at this
    rw [hget i hi] at he
    rw [hget j hj] at hf
    have he' : e = _ := (Option.some.inj he).symm
    have hf' : f = _ := (Option.some.inj hf).symm
    have hec : e.count = l[i].count := by
      rw [he']; split_ifs with h1
      · subst h1; rfl
      · rfl
    have hfc : f.count = l[j].count := by
      rw [hf']; split_ifs with h1
      · subst h1; rfl
      · rfl
    rw [hec, hfc]
    by_cases hjix : j = ix
    · subst hjix
      exact hnone i hi hij
    · exact hA i j hi hj hij hjix
  · intro i e he
    have hi : i < l.length := by
      have := (List.getElem?_eq_some.1 he).1
      rwa [swapNodes_length] at this
    rw [hget i hi] at he
    have he' : e = _ := (Option.some.inj he).symm
    have hr := hR i l[i] (List.getElem?_eq_getElem hi)
    rw [he']
    split_ifs with h1
    · simp [h1]
    · exact hr

/-- Renormalizing restores the descending-count and rank invariants,
provided the list was sorted except (possibly) at `ix`, and the count at
`ix` exceeds the counts before it by at most one. -/
theorem renormalize_invariant (l : List PCount) (ix : Nat) (hix : ix < l.length)
    (hA : ∀ (i j : Nat) (hi : i < l.length) (hj : j < l.length), i ≤ j → j ≠ ix →
      l[j].count ≤ l[i].count)
    (hB : ∀ (i : Nat) (hi : i < l.length), i < ix → l[ix].count ≤ l[i].count + 1)
    (hR : ranksAligned l) :
    countsDesc (renormalize l ix).1 ∧ ranksAligned (renormalize l ix).1 := by
  have htake : (l.take (ix + 1)).length = ix + 1 := by
    rw [List.length_take]; omega
  cases hf : firstIdxP (fun e => decide (e.count < ((l[ix]?).map (·.count)).getD 0))
      (l.take (ix + 1)) with
  | none =>
    have h1 : (renormalize l ix).1 = swapNodes l ix ix := by
      simp [renormalize, List.get?_eq_getElem?, hf]
    rw [h1]
    apply swap_inv_self l ix hix hA hR
    intro k hk hkix
    have h2 := firstIdxP_none hf k (by rw [htake]; omega)
    rw [List.getElem_take, List.getElem?_eq_getElem hix] at h2
    simp at h2
    omega
  | some r =>
    have h1 : (renormalize l ix).1 = swapNodes l r ix := by
      simp [renormalize, List.get?_eq_getElem?, hf]
    rw [h1]
    have hrlt : r < ix + 1 := by
      have := firstIdxP_some_lt hf; rwa [htake] at this
    have hhit := firstIdxP_some_hit hf (by rw [htake]; omega)
    rw [List.getElem_take, List.getElem?_eq_getElem hix] at hhit
    simp at hhit
    have hrne : r ≠ ix := by
      intro h; subst h; omega
    apply swap_inv_found l ix r hix (by omega) hA hB hR hhit
    intro k hk hkr
    have h2 := firstIdxP_some_min hf k (by rw [htake]; omega) hkr
    rw [List.getElem_take, List.getElem?_eq_getElem hix] at h2
    simp at h2
    omega

/-! ## insert specification -/

theorem insert_sorted_vec_found (t : ProbTable) (v : Nat) (i : Nat)
    (hf : firstIdxP (fun e => e.val == v) t.sorted_vec = some i) :
    (t.insert v).1.sorted_vec =
      (renormalize (t.sorted_vec.set i
        { t.sorted_vec.getD i default with
            count := (t.sorted_vec.getD i default).count + 1 })
        (t.sorted_vec.getD i default).rank).1 := by
  simp [ProbTable.insert, hf]

theorem insert_sorted_vec_new (t : ProbTable) (v : Nat)
    (hf : firstIdxP (fun e => e.val == v) t.sorted_vec = none) :
    (t.insert v).1.sorted_vec =
      (renormalize (t.sorted_vec ++
        [{ val := v, count := 1, rank := t.sorted_vec.length }])
        t.sorted_vec.length).1 := by
  simp [ProbTable.insert, hf]

theorem countsPos_iff_idx (l : List PCount) :
    countsPos l ↔ ∀ (k : Nat) (hk : k < l.length), 1 ≤ l[k].count := by
  constructor
  · intro h k hk
    exact h l[k] (List.mem_iff_getElem.2 ⟨k, hk, rfl⟩)
  · intro h e he
    obtain ⟨k, hk, hke⟩ := List.mem_iff_getElem.1 he
    rw [← hke]
    exact h k hk

theorem countsPos_of_corr (src dst : List PCount)
    (hsrc : ∀ (k : Nat) (hk : k < src.length), 1 ≤ src[k].count)
    (hcorr : ∀ (i : Nat) (e : PCount), dst[i]? = some e →
      ∃ (j : Nat) (f : PCount), src[j]? = some f ∧ e.val = f.val ∧ e.count = f.count) :
    countsPos dst := by
  rw [countsPos_iff_idx]
  intro k hk
  obtain ⟨j, f, hjf, _, hcnt⟩ := hcorr k dst[k] (List.getElem?_eq_getElem hk)
  have hj : j < src.length := (List.getElem?_eq_some.1 hjf).1
  have : src[j] = f := by
    have := List.getElem?_eq_getElem hj
    rw [this] at hjf; exact Option.some.inj hjf
  rw [hcnt, ← this]
  exact hsrc j hj

/-- `insert` preserves the rank/sort/count invariants of the table. -/
theorem insert_inv (t : ProbTable) (v : Nat)
    (hR : ranksAligned t.sorted_vec) (hD : countsDesc t.sorted_vec)
    (hP : countsPos t.sorted_vec) :
    ranksAligned (t.insert v).1.sorted_vec ∧ countsDesc (t.insert v).1.sorted_vec ∧
      countsPos (t.insert v).1.sorted_vec := by
  have hDidx : ∀ (a b : Nat) (ha : a < t.sorted_vec.length)
      (hb : b < t.sorted_vec.length), a ≤ b →
      t.sorted_vec[b].count ≤ t.sorted_vec[a].count := by
    intro a b ha hb hab
    exact hD a b t.sorted_vec[a] t.sorted_vec[b] hab
      (List.getElem?_eq_getElem ha) (List.getElem?_eq_getElem hb)
  have hPidx := (countsPos_iff_idx t.sorted_vec).1 hP
  cases hf : firstIdxP (fun e => e.val == v) t.sorted_vec with
  | some i =>
    have hi : i < t.sorted_vec.length := firstIdxP_some_lt hf
    have hnode : t.sorted_vec.getD i default = t.sorted_vec[i] := by
      rw [List.getD_eq_getElem?_getD, List.getElem?_eq_getElem hi]; rfl
    have hrank : t.sorted_vec[i].rank = i :=
      hR i t.sorted_vec[i] (List.getElem?_eq_getElem hi)
    have hveq := insert_sorted_vec_found t v i hf
    rw [hnode, hrank] at hveq
    have hlen1 : (t.sorted_vec.set i
        { t.sorted_vec[i] with count := t.sorted_vec[i].count + 1 }).length =
        t.sorted_vec.length := List.length_set t.sorted_vec i _
    have hget1 : ∀ (k : Nat) (hk : k < t.sorted_vec.length),
        (t.sorted_vec.set i
          { t.sorted_vec[i] with count := t.sorted_vec[i].count + 1 })[k]? =
          some (if i = k then { t.sorted_vec[i] with count := t.sorted_vec[i].count + 1 }
                else t.sorted_vec[k]) := by
      intro k hk
      rw [List.getElem?_set]
      split_ifs with h1
      · simp [hi]
      · rw [List.getElem?_eq_getElem hk]
    have hcount1 : ∀ (k : Nat) (hk : k < t.sorted_vec.length),
        ∀ e : PCount, (t.sorted_vec.set i
          { t.sorted_vec[i] with count := t.sorted_vec[i].count + 1 })[k]? = some e →
          e.count = if i = k then t.sorted_vec[i].count + 1 else t.sorted_vec[k].count := by
      intro k hk e he
      rw [hget1 k hk] at he
      rw [← Option.some.inj he]
      split_ifs <;> rfl
    have hinv := renormalize_invariant
      (t.sorted_vec.set i { t.sorted_vec[i] with count := t.sorted_vec[i].count + 1 }) i
      (by omega)
      (by
        intro a b ha hb hab hbne
        have ha' : a < t.sorted_vec.length := by omega
        have hb' : b < t.sorted_vec.length := by omega
        have hca := hcount1 a ha' _ (List.getElem?_eq_getElem ha)
        have hcb := hcount1 b hb' _ (List.getElem?_eq_getElem hb)
        rw [hca, hcb, if_neg (fun h => hbne h.symm)]
        split_ifs with h1
        · have h2 := hDidx i b (by omega) hb' (by omega)
          omega
        · exact hDidx a b ha' hb' hab)
      (by
        intro a ha halt
        have ha' : a < t.sorted_vec.length := by omega
        have hca := hcount1 a ha' _ (List.getElem?_eq_getElem ha)
        have hci := hcount1 i hi _
          (List.getElem?_eq_getElem (by omega : i < (t.sorted_vec.set i
            { t.sorted_vec[i] with count := t.sorted_vec[i].count + 1 }).length))
        rw [hca, hci, if_pos rfl, if_neg (fun h => by omega)]
        have h2 := hDidx a i ha' hi (by omega)
        omega)
      (by
        intro k e he
        have hk : k < t.sorted_vec.length := by
          have := (List.getElem?_eq_some.1 he).1
          omega
        rw [hget1 k hk] at he
        rw [← Option.some.inj he]
        split_ifs with h1
        · simp [← h1, hrank]
        · exact hR k t.sorted_vec[k] (List.getElem?_eq_getElem hk))
    rw [hveq]
    refine ⟨hinv.2, hinv.1, ?_⟩
    apply countsPos_of_corr (t.sorted_vec.set i
      { t.sorted_vec[i] with count := t.sorted_vec[i].count + 1 }) _
      (by
        intro k hk
        have hk' : k < t.sorted_vec.length := by omega
        have := hcount1 k hk' _ (List.getElem?_eq_getElem hk)
        rw [this]
        split_ifs with h1
        · omega
        · exact hPidx k hk')
      (renormalize_corr_new _ i)
  | none =>
    have hveq := insert_sorted_vec_new t v hf
    have hlen1 : (t.sorted_vec ++
        [({ val := v, count := 1, rank := t.sorted_vec.length } : PCount)]).length =
        t.sorted_vec.length + 1 := by simp
    have hget1 : ∀ (k : Nat) (hk : k < t.sorted_vec.length + 1),
        (t.sorted_vec ++ [{ val := v, count := 1, rank := t.sorted_vec.length }])[k]? =
          some (if hlt : k < t.sorted_vec.length then t.sorted_vec[k]
                else { val := v, count := 1, rank := t.sorted_vec.length }) := by
      intro k hk
      rw [List.getElem?_append]
      split_ifs with h1
      · rw [List.getElem?_eq_getElem h1]
      · have hke : k = t.sorted_vec.length := by omega
        subst hke
        simp
    have hinv := renormalize_invariant
      (t.sorted_vec ++ [{ val := v, count := 1, rank := t.sorted_vec.length }])
      t.sorted_vec.length
      (by omega)
      (by
        intro a b ha hb hab hbne
        have hb' : b < t.sorted_vec.length := by
          rw [hlen1] at hb; omega
        have ha' : a < t.sorted_vec.length := by omega
        have hca := hget1 a (by omega)
        have hcb := hget1 b (by omega)
        rw [List.getElem?_eq_getElem ha] at hca
        rw [List.getElem?_eq_getElem hb] at hcb
        rw [Option.some.inj hca, Option.some.inj hcb, dif_pos ha', dif_pos hb']
        exact hDidx a b ha' hb' hab)
      (by
        intro a ha halt
        have ha' : a < t.sorted_vec.length := by omega
        have hca := hget1 a (by omega)
        have hcl := hget1 t.sorted_vec.length (by omega)
        rw [List.getElem?_eq_getElem ha] at hca
        rw [List.getElem?_eq_getElem (by omega : t.sorted_vec.length <
          (t.sorted_vec ++
            [({ val := v, count := 1, rank := t.sorted_vec.length } : PCount)]).length)]
          at hcl
        rw [Option.some.inj hca, Option.some.inj hcl, dif_pos ha',
          dif_neg (by omega : ¬ t.sorted_vec.length < t.sorted_vec.length)]
        show 1 ≤ t.sorted_vec[a].count + 1
        omega)
      (by
        intro k e he
        have hk : k < t.sorted_vec.length + 1 := by
          have := (List.getElem?_eq_some.1 he).1
          omega
        rw [hget1 k hk] at he
        rw [← Option.some.inj he]
        split_ifs with h1
        · exact hR k t.sorted_vec[k] (List.getElem?_eq_getElem h1)
        · simp; omega)
    rw [hveq]
    refine ⟨hinv.2, hinv.1, ?_⟩
    refine countsPos_of_corr _ _ ?_ (renormalize_corr_new _ t.sorted_vec.length)
    intro k hk
    have hk' : k < t.sorted_vec.length + 1 := by
      rw [hlen1] at hk; omega
    have := hget1 k hk'
    rw [List.getElem?_eq_getElem hk] at this
    rw [Option.some.inj this]
    split_ifs with h1
    · exact hPidx k h1
    · exact Nat.le.refl

theorem hasVal_iff_idx (l : List PCount) (y : Nat) :
    hasVal l y ↔ ∃ (k : Nat) (hk : k < l.length), l[k].val = y := by
  constructor
  · intro ⟨e, he, hv⟩
    obtain ⟨k, hk, hke⟩ := List.mem_iff_getElem.1 he
    exact ⟨k, hk, by rw [hke]; exact hv⟩
  · intro ⟨k, hk, hkv⟩
    exact ⟨l[k], List.mem_iff_getElem.2 ⟨k, hk, rfl⟩, hkv⟩

/-- Values present in the table stay present across `insert`. -/
theorem insert_hasVal_mono (t : ProbTable) (v y : Nat)
    (h : hasVal t.sorted_vec y) : hasVal (t.insert v).1.sorted_vec y := by
  obtain ⟨k, hk, hkv⟩ := (hasVal_iff_idx t.sorted_vec y).1 h
  cases hf : firstIdxP (fun e => e.val == v) t.sorted_vec with
  | some i =>
    have hi : i < t.sorted_vec.length := firstIdxP_some_lt hf
    have hnode : t.sorted_vec.getD i default = t.sorted_vec[i] := by
      rw [List.getD_eq_getElem?_getD, List.getElem?_eq_getElem hi]; rfl
    have hveq := insert_sorted_vec_found t v i hf
    rw [hnode] at hveq
    set ix := t.sorted_vec[i].rank with hix
    have hget1 : (t.sorted_vec.set i
        { t.sorted_vec[i] with count := t.sorted_vec[i].count + 1 })[k]? =
        some (if i = k then { t.sorted_vec[i] with count := t.sorted_vec[i].count + 1 }
              else t.sorted_vec[k]) := by
      rw [List.getElem?_set]
      split_ifs with h1
      · simp [hi]
      · rw [List.getElem?_eq_getElem hk]
    obtain ⟨j, e, hje, hev, _⟩ := renormalize_corr_old _ ix k _ hget1
    rw [hveq, hasVal_iff_idx]
    obtain ⟨hj, hjeq⟩ := List.getElem?_eq_some.1 hje
    refine ⟨j, hj, ?_⟩
    rw [hjeq, hev]
    split_ifs with h1
    · subst h1
      exact hkv
    · exact hkv
  | none =>
    have hveq := insert_sorted_vec_new t v hf
    have hget1 : (t.sorted_vec ++
        [({ val := v, count := 1, rank := t.sorted_vec.length } : PCount)])[k]? =
        some t.sorted_vec[k] := by
      rw [List.getElem?_append]
      rw [if_pos hk, List.getElem?_eq_getElem hk]
    obtain ⟨j, e, hje, hev, _⟩ := renormalize_corr_old _ t.sorted_vec.length k _ hget1
    rw [hveq, hasVal_iff_idx]
    obtain ⟨hj, hjeq⟩ := List.getElem?_eq_some.1 hje
    refine ⟨j, hj, ?_⟩
    rw [hjeq, hev, hkv]

/-- The inserted value is present after `insert`. -/
theorem insert_hasVal_self (t : ProbTable) (v : Nat) :
    hasVal (t.insert v).1.sorted_vec v := by
  cases hf : firstIdxP (fun e => e.val == v) t.sorted_vec with
  | some i =>
    have hi : i < t.sorted_vec.length := firstIdxP_some_lt hf
    have hhit := firstIdxP_some_hit hf hi
    have hival : t.sorted_vec[i].val = v := by simpa using hhit
    have hnode : t.sorted_vec.getD i default = t.sorted_vec[i] := by
      rw [List.getD_eq_getElem?_getD, List.getElem?_eq_getElem hi]; rfl
    have hveq := insert_sorted_vec_found t v i hf
    rw [hnode] at hveq
    have hget1 : (t.sorted_vec.set i
        { t.sorted_vec[i] with count := t.sorted_vec[i].count + 1 })[i]? =
        some { t.sorted_vec[i] with count := t.sorted_vec[i].count + 1 } := by
      rw [List.getElem?_set]
      simp [hi]
    obtain ⟨j, e, hje, hev, _⟩ := renormalize_corr_old _ t.sorted_vec[i].rank i _ hget1
    rw [hveq, hasVal_iff_idx]
    obtain ⟨hj, hjeq⟩ := List.getElem?_eq_some.1 hje
    refine ⟨j, hj, ?_⟩
    rw [hjeq, hev]
    exact hival
  | none =>
    have hveq := insert_sorted_vec_new t v hf
    have hget1 : (t.sorted_vec ++
        [({ val := v, count := 1, rank := t.sorted_vec.length } : PCount)])[t.sorted_vec.length]? =
        some { val := v, count := 1, rank := t.sorted_vec.length } := by
      rw [List.getElem?_append_right (Nat.le_refl _)]
      simp
    obtain ⟨j, e, hje, hev, _⟩ := renormalize_corr_old _ t.sorted_vec.length
      t.sorted_vec.length _ hget1
    rw [hveq, hasVal_iff_idx]
    obtain ⟨hj, hjeq⟩ := List.getElem?_eq_some.1 hje
    refine ⟨j, hj, ?_⟩
    rw [hjeq, hev]

/-! ## feed-level invariants -/

theorem feed_cons (t : ProbTable) (x : Nat) (xs : List Nat) :
    t.feed (x :: xs) = ((t.insert x).1).feed xs := by
  simp [ProbTable.feed]

theorem feed_inv (xs : List Nat) (t : ProbTable)
    (hR : ranksAligned t.sorted_vec) (hD : countsDesc t.sorted_vec)
    (hP : countsPos t.sorted_vec) :
    ranksAligned (t.feed xs).sorted_vec ∧ countsDesc (t.feed xs).sorted_vec ∧
      countsPos (t.feed xs).sorted_vec := by
  induction xs generalizing t with
  | nil => exact ⟨hR, hD, hP⟩
  | cons x xs ih =>
    rw [feed_cons]
    obtain ⟨h1, h2, h3⟩ := insert_inv t x hR hD hP
    exact ih _ h1 h2 h3

theorem feed_hasVal_mono (xs : List Nat) (t : ProbTable) (y : Nat)
    (h : hasVal t.sorted_vec y) : hasVal (t.feed xs).sorted_vec y := by
  induction xs generalizing t with
  | nil => exact h
  | cons x xs ih =>
    rw [feed_cons]
    exact ih _ (insert_hasVal_mono t x y h)

theorem feed_hasVal_of_mem (xs : List Nat) :
    ∀ (t : ProbTable) (x : Nat), x ∈ xs → hasVal (t.feed xs).sorted_vec x := by
  induction xs with
  | nil => intro t x hx; cases hx
  | cons a as ih =>
    intro t x hx
    rw [feed_cons]
    rcases List.mem_cons.1 hx with h | h
    · subst h
      exact feed_hasVal_mono as _ x (insert_hasVal_self t x)
    · exact ih _ x h

/-! ## rank and position -/

theorem rank_isSome_iff_hasVal (t : ProbTable) (x : Nat) :
    (t.rank x).isSome = true ↔ hasVal t.sorted_vec x := by
  rw [ProbTable.rank]
  cases hfind : List.find? (fun e => e.val == x) t.sorted_vec with
  | none =>
    simp only [Option.map_none', Option.isSome_none]
    constructor
    · intro h; cases h
    · intro ⟨e, he, hv⟩
      have := List.find?_eq_none.1 hfind e he
      simp [hv] at this
  | some a =>
    simp only [Option.map_some', Option.isSome_some]
    constructor
    · intro _
      exact ⟨a, List.mem_of_find?_eq_some hfind, by simpa using List.find?_some hfind⟩
    · intro _; trivial

theorem rank_position_of_hasVal (t : ProbTable) (x : Nat)
    (hR : ranksAligned t.sorted_vec) (h : hasVal t.sorted_vec x) :
    ∃ r : Nat, t.rank x = some r ∧ t.position r = some x := by
  have hsome : (List.find? (fun e => e.val == x) t.sorted_vec).isSome = true := by
    obtain ⟨e, he, hv⟩ := h
    exact List.find?_isSome.2 ⟨e, he, by simpa using hv⟩
  cases hfind : List.find? (fun e => e.val == x) t.sorted_vec with
  | none => rw [hfind] at hsome; cases hsome
  | some a =>
    have hav : a.val = x := by simpa using List.find?_some hfind
    obtain ⟨n, hn, hna⟩ := List.getElem_of_mem (List.mem_of_find?_eq_some hfind)
    have hrank : a.rank = n := by
      rw [← hna]
      exact hR n t.sorted_vec[n] (List.getElem?_eq_getElem hn)
    refine ⟨n, ?_, ?_⟩
    · rw [ProbTable.rank, hfind]
      simp [hrank]
    · rw [ProbTable.position, List.get?_eq_getElem?, List.getElem?_eq_getElem hn]
      simp [hna, hav]

/-! ## Claim C5 — rank table invariant -/

/-- C5: after any sequence of inserts into a fresh `ProbTable`, (1) reading
`sorted_vec` in rank order gives a non-increasing count sequence, (2) every
node's stored rank equals its index, and (3) `position(rank(x)) == x` for
every inserted symbol `x`. -/
theorem c5_probtable_rank_invariant (xs : List Nat) :
    countsDesc (ProbTable.new.feed xs).sorted_vec ∧
    ranksAligned (ProbTable.new.feed xs).sorted_vec ∧
    (∀ x ∈ xs, ∃ r : Nat, (ProbTable.new.feed xs).rank x = some r ∧
      (ProbTable.new.feed xs).position r = some x) := by
  have hR0 : ranksAligned ProbTable.new.sorted_vec := by
    intro i e he
    simp [ProbTable.new] at he
  have hD0 : countsDesc ProbTable.new.sorted_vec := by
    intro i j e f hij he hf
    simp [ProbTable.new] at he
  have hP0 : countsPos ProbTable.new.sorted_vec := by
    intro e he
    simp [ProbTable.new] at he
  obtain ⟨hR, hD, _⟩ := feed_inv xs ProbTable.new hR0 hD0 hP0
  exact ⟨hD, hR, fun x hx =>
    rank_position_of_hasVal _ x hR (feed_hasVal_of_mem xs ProbTable.new x hx)⟩

/-- Witness for C5: in the table fed with `[2, 2, 3]`, the inserted symbol 2
satisfies `position(rank(2)) = 2`. -/
theorem c5_probtable_rank_invariant_witness :
    ∃ r : Nat, (ProbTable.new.feed [2, 2, 3]).rank 2 = some r ∧
      (ProbTable.new.feed [2, 2, 3]).position r = some 2 :=
  (c5_probtable_rank_invariant [2, 2, 3]).2.2 2 (by decide)

/-! ## Full-alphabet invariant of the conditional codec -/

theorem seededTable_full (val : Nat) : tableFull (seededTable val) := by
  intro b hb
  rw [rank_isSome_iff_hasVal]
  exact feed_hasVal_of_mem (List.range 256 ++ [val]) ProbTable.new b
    (List.mem_append.2 (Or.inl (List.mem_range.2 hb)))

theorem insert_tableFull (t : ProbTable) (v : Nat) (h : tableFull t) :
    tableFull (t.insert v).1 := by
  intro b hb
  rw [rank_isSome_iff_hasVal]
  exact insert_hasVal_mono t v b ((rank_isSome_iff_hasVal t b).1 (h b hb))

theorem ctxGet_mem (ts : CtxTables) (cx : List Nat) (t : ProbTable)
    (h : ctxGet ts cx = some t) : ∃ e ∈ ts, e.2 = t := by
  unfold ctxGet at h
  cases hfind : List.find? (fun e => e.1 == cx) ts with
  | none => rw [hfind] at h; cases h
  | some p =>
    rw [hfind] at h
    exact ⟨p, List.mem_of_find?_eq_some hfind, Option.some.inj h⟩

theorem singleUpdate_full (ts : CtxTables) (cx : List Nat) (val : Nat)
    (h : ctxAllFull ts) : ctxAllFull (singleUpdate ts cx val) := by
  unfold singleUpdate
  cases hget : ctxGet ts cx with
  | some t =>
    intro e he
    obtain ⟨p, hp, hpe⟩ := List.mem_map.1 he
    by_cases hc : p.1 = cx
    · rw [if_pos hc] at hpe
      rw [← hpe]
      obtain ⟨q, hq, hqt⟩ := ctxGet_mem ts cx t hget
      exact insert_tableFull t val (hqt ▸ h q hq)
    · rw [if_neg hc] at hpe
      rw [← hpe]
      exact h p hp
  | none =>
    intro e he
    rcases List.mem_append.1 he with h1 | h1
    · exact h e h1
    · have h2 : e.2 = seededTable val := by
        have h3 : e = (cx, seededTable val) := by simpa using h1
        rw [h3]
      rw [h2]
      exact seededTable_full val

theorem takeLoop_full (bs : List Nat) :
    ∀ (ts : CtxTables) (v : List Nat), ctxAllFull ts →
      ctxAllFull (fullUpdateTakeLoop ts v bs).1 := by
  induction bs with
  | nil => intro ts v h; exact h
  | cons b rest ih =>
    intro ts v h
    exact ih _ _ (singleUpdate_full ts v b h)

theorem winLoop_full (order : Nat) (bs : List Nat) :
    ∀ ts : CtxTables, ctxAllFull ts → ctxAllFull (fullUpdateWinLoop order ts bs) := by
  induction bs with
  | nil => intro ts h; exact h
  | cons b rest ih =>
    intro ts h
    unfold fullUpdateWinLoop
    split_ifs with h1
    · exact ih _ (singleUpdate_full ts _ _ h)
    · exact h

theorem fullUpdate_full (order : Nat) (ts : CtxTables) (bytes : List Nat)
    (h : ctxAllFull ts) : ctxAllFull (fullUpdate order ts bytes) :=
  winLoop_full order bytes _ (takeLoop_full (bytes.take order) ts [] h)

theorem encProcess_tables (st : ConditionalRleEncoder) (bytes : List Nat) :
    (st.process bytes).1.ctx_tables = fullUpdate st.order st.ctx_tables bytes := rfl

theorem decProcess_tables (st : ConditionalRleDecoder) (bytes : List Nat) :
    ∃ upd : List Nat,
      (st.process bytes).1.tables = fullUpdate st.order st.tables upd :=
  ⟨_, rfl⟩

theorem encChunks_full (css : List (List Nat)) :
    ∀ st : ConditionalRleEncoder, ctxAllFull st.ctx_tables →
      ctxAllFull (runChunks ConditionalRleEncoder.process st css).1.ctx_tables := by
  induction css with
  | nil => intro st h; exact h
  | cons c cs ih =>
    intro st h
    exact ih _ (by rw [encProcess_tables]; exact fullUpdate_full _ _ _ h)

theorem decChunks_full (css : List (List Nat)) :
    ∀ st : ConditionalRleDecoder, ctxAllFull st.tables →
      ctxAllFull (runChunks ConditionalRleDecoder.process st css).1.tables := by
  induction css with
  | nil => intro st h; exact h
  | cons c cs ih =>
    intro st h
    refine ih _ ?_
    obtain ⟨upd, hupd⟩ := decProcess_tables st c
    rw [hupd]
    exact fullUpdate_full _ _ _ h

/-! ## Claim C10 — conditional tables hold the full byte alphabet -/

/-- C10: in every encoder or decoder state reachable by `process` calls from
a fresh conditional codec, every per-context rank table contains an entry
for all byte values 0..=255 (it is seeded with `0..=u8::MAX` before the
first real insert, and updates preserve this); consequently, when a
context's table exists the rank lookup of any byte is `some`, and the
encoder's raw-symbol fallback fires exactly when the context has no table
yet or the rank has no code in the configured bit width. -/
theorem c10_conditional_full_alphabet (o bits : Nat) (css : List (List Nat)) :
    ctxAllFull (encStateAfter o bits css).ctx_tables ∧
    ctxAllFull (decStateAfter o bits css).tables ∧
    (∀ (ts : CtxTables) (cx : List Nat) (t : ProbTable) (b : Nat),
      ctxAllFull ts → ctxGet ts cx = some t → b < 256 →
        (t.rank b).isSome = true) ∧
    (∀ (ts : CtxTables) (code : RLEU8) (cx : List Nat) (next : Nat),
      ctxAllFull ts → next < 256 →
      (condEncodeChain ts code cx next = none ↔
        ctxGet ts cx = none ∨
          ∃ (t : ProbTable) (r : Nat), ctxGet ts cx = some t ∧
            t.rank next = some r ∧ code.encode r = none)) := by
  have hlookup : ∀ (ts : CtxTables) (cx : List Nat) (t : ProbTable) (b : Nat),
      ctxAllFull ts → ctxGet ts cx = some t → b < 256 →
        (t.rank b).isSome = true := by
    intro ts cx t b hfull hget hb
    obtain ⟨q, hq, hqt⟩ := ctxGet_mem ts cx t hget
    exact (hqt ▸ hfull q hq) b hb
  refine ⟨?_, ?_, hlookup, ?_⟩
  · exact encChunks_full css _ (fun e he => absurd he (List.not_mem_nil e))
  · exact decChunks_full css _ (fun e he => absurd he (List.not_mem_nil e))
  · intro ts code cx next hfull hnext
    cases hget : ctxGet ts cx with
    | none =>
      simp [condEncodeChain, hget]
    | some t =>
      obtain ⟨r, hr⟩ := Option.isSome_iff_exists.1 (hlookup ts cx t next hfull hget hnext)
      rw [condEncodeChain, hget]
      simp only [Option.some_bind, hr]
      constructor
      · intro hnone
        exact Or.inr ⟨t, r, rfl, hr, hnone⟩
      · intro h
        rcases h with h | ⟨t2, r2, ht2, hr2, hcode⟩
        · cases h
        · have ht2e := Option.some.inj ht2
          subst ht2e
          rw [hr] at hr2
          rw [Option.some.inj hr2]
          exact hcode

/-- Witness for C10: the fallback characterization instantiated at the
empty context map with 8-bit codes. -/
theorem c10_conditional_full_alphabet_witness :
    condEncodeChain [] { bits := 8 } [] 0 = none ↔
      ctxGet [] [] = none ∨
        ∃ (t : ProbTable) (r : Nat), ctxGet ([] : CtxTables) [] = some t ∧
          t.rank 0 = some r ∧ RLEU8.encode { bits := 8 } r = none :=
  (c10_conditional_full_alphabet 1 8 []).2.2.2 [] { bits := 8 } [] 0
    (fun e he => absurd he (List.not_mem_nil e)) (by decide)

/-- Witness for C2 (amended): the chunk-splitting equality instantiated for
`Duplicate` at the concrete split `[[1], [2]]`. -/
theorem c2_chunking_amended_witness :
    runChunksFinish Duplicate.process Duplicate.finish {} [[1], [2]] =
      runProcessFinish Duplicate.process Duplicate.finish {} [[1], [2]].flatten :=
  (c2_chunking_amended [[1], [2]] 2 2 2).1

/-- Witness for C4 (amended): the empty input instance. -/
theorem c4_checksum_output_amended_witness :
    (Adler32.process Adler32.new []).2 = [] ∧
    (Adler32.finish (Adler32.process Adler32.new []).1).2 = [] ∧
    Adler32.display (Adler32.process Adler32.new []).1 =
      "Adler32<" ++ fmtHex32 (((Adler32.process Adler32.new []).1.b <<< 16) |||
        (Adler32.process Adler32.new []).1.a) ++ ">" ∧
    (CRC32.process CRC32.new []).2 = [] ∧
    (CRC32.finish (CRC32.process CRC32.new []).1).2 = [] ∧
    CRC32.display (CRC32.process CRC32.new []).1 =
      "CRC32<" ++ fmtHex32 ((CRC32.process CRC32.new []).1.checksum) ++ ">" :=
  c4_checksum_output_amended []

/-- Witness for C8: the pair-expansion law at the concrete pair `[7, 3]`. -/
theorem c8_lossy_reduced_roundtrip_witness :
    decodeLossy [7, 3] = List.replicate 4 7 :=
  c8_lossy_reduced_roundtrip.2 7 3
